import Mathlib

/-!
# Verification of `Poco::UniqueExpireStrategy`

Shallow embedding of `src/libs/poco/include/Poco/UniqueExpireStrategy.h`.

The C++ class keeps two members:

* `TimeIndex _keyIndex` — a `std::multimap<Timestamp, TKey>`, ordered by
  timestamp ascending, duplicate timestamps allowed.  We embed it as a list of
  `TimeEntry` records kept sorted by the `exp` field.  A C++ iterator into the
  multimap (stable until its element is erased) is embedded as a fresh natural
  identifier `id` carried inside each entry; the strategy state carries a
  counter `nextId` from which fresh identifiers are drawn.
* `Keys _keys` — a `std::map<TKey, IndexIterator>`; embedded as an association
  list from keys to the identifier of the time-index entry the stored iterator
  points at.

`Poco::Timestamp` (microseconds, 64-bit) is embedded as `Int`; operations that
read the wall clock (`Timestamp now;`) instead receive `now : Int` as an
argument.  `ValidArgs` is embedded as the `Bool` validity slot threaded in and
out of `onIsValid` (`invalidate()` sets it to `false`).  Every method is a
function from the pre-state (plus arguments) to the post-state (plus outputs),
so "the method does not mutate" is the statement that the state component of
the result equals the pre-state.
-/

/-- One element of the `std::multimap<Timestamp, TKey>`: its key part `exp`
(the expiration timestamp), its mapped value `key`, and the stable identifier
`id` standing for a C++ iterator to this element. -/
structure TimeEntry (K : Type) where
  id : Nat
  exp : Int
  key : K
deriving DecidableEq, Repr

/-- The `TimeIndex` member type (`std::multimap<Timestamp, TKey>`), as a list
sorted by `exp` ascending. -/
abbrev TimeIndex (K : Type) := List (TimeEntry K)

/-- The `Keys` member type (`std::map<TKey, IndexIterator>`), as an association
list from key to the identifier of a time-index entry. -/
abbrev Keys (K : Type) := List (K × Nat)

/-- The state of a `UniqueExpireStrategy<TKey, TValue>` object: the two data
members `_keys` and `_keyIndex`, plus the fresh-identifier counter of the
embedding. -/
structure UniqueExpireStrategy (K : Type) where
  keys : Keys K
  keyIndex : TimeIndex K
  nextId : Nat
deriving DecidableEq, Repr

/-- The default constructor `UniqueExpireStrategy()`: both containers empty. -/
def UniqueExpireStrategy.empty (K : Type) : UniqueExpireStrategy K :=
  { keys := [], keyIndex := [], nextId := 0 }

variable {K : Type} [DecidableEq K]

/-- Embeds `std::map::find` on the `_keys` map: the identifier recorded for
`k`, if `k` is present. -/
def findKey (k : K) : Keys K → Option Nat
  | [] => none
  | p :: rest => if p.1 = k then some p.2 else findKey k rest

/-- Dereferencing a stored iterator: the time-index entry carrying identifier
`id`, if still present. -/
def findEntry (id : Nat) : TimeIndex K → Option (TimeEntry K)
  | [] => none
  | e :: rest => if e.id = id then some e else findEntry id rest

/-- Embeds `std::multimap::insert`: place `e` at the upper bound of its timestamp,
i.e. before the first element whose timestamp is strictly larger, after all
elements with an equal or smaller timestamp. -/
def insertTime (e : TimeEntry K) : TimeIndex K → TimeIndex K
  | [] => [e]
  | x :: rest => if e.exp < x.exp then e :: x :: rest else x :: insertTime e rest

/-- Embeds `UniqueExpireStrategy::onAdd(key, value)` with `ts = value.getExpiration()`:
insert `(expire, key)` into `_keyIndex`, then try `_keys.insert(key ↦ it)`;
if `key` was already mapped (insertion refused), erase the old time-index
entry through the stored iterator and overwrite the mapping with the new
iterator. -/
def onAdd (s : UniqueExpireStrategy K) (k : K) (ts : Int) : UniqueExpireStrategy K :=
  let e : TimeEntry K := { id := s.nextId, exp := ts, key := k }
  let ti := insertTime e s.keyIndex
  match findKey k s.keys with
  | none =>
      { keys := (k, e.id) :: s.keys, keyIndex := ti, nextId := s.nextId + 1 }
  | some oldId =>
      { keys := s.keys.map (fun p => if p.1 = k then (k, e.id) else p),
        keyIndex := ti.filter (fun x => x.id ≠ oldId),
        nextId := s.nextId + 1 }

/-- Embeds `UniqueExpireStrategy::onRemove(key)`: if `key` is mapped, erase its
time-index entry through the stored iterator and erase the mapping; otherwise
do nothing. -/
def onRemove (s : UniqueExpireStrategy K) (k : K) : UniqueExpireStrategy K :=
  match findKey k s.keys with
  | none => s
  | some id =>
      { keys := s.keys.filter (fun p => p.1 ≠ k),
        keyIndex := s.keyIndex.filter (fun e => e.id ≠ id),
        nextId := s.nextId }

/-- Embeds `UniqueExpireStrategy::onGet(key)`: "get triggers no changes in an
expire". -/
def onGet (s : UniqueExpireStrategy K) (_k : K) : UniqueExpireStrategy K := s

/-- Embeds `UniqueExpireStrategy::onClear()`: `_keys.clear(); _keyIndex.clear()`. -/
def onClear (s : UniqueExpireStrategy K) : UniqueExpireStrategy K :=
  { keys := [], keyIndex := [], nextId := s.nextId }

/-- Embeds `UniqueExpireStrategy::onIsValid(args)`: if `args.key()` is mapped and the
pointed-to entry's timestamp is `≤ now`, call `args.invalidate()` (set the slot
to `false`); otherwise leave the slot alone.  Returns the state left behind by
the method together with the slot.  The inner `none` branch (a dangling stored
iterator) is unreachable in reachable states — see the invariant theorems. -/
def onIsValid (s : UniqueExpireStrategy K) (k : K) (now : Int) (isValid : Bool) :
    UniqueExpireStrategy K × Bool :=
  match findKey k s.keys with
  | none => (s, isValid)
  | some id =>
      match findEntry id s.keyIndex with
      | none => (s, isValid)
      | some e => if e.exp ≤ now then (s, false) else (s, isValid)

/-- Embeds `std::set::insert` on the `elemsToRemove` collection: add `k` unless
already present. -/
def insertSet (k : K) (l : List K) : List K :=
  if k ∈ l then l else l ++ [k]

/-- The loop of `onReplace`: walk the time index from the beginning while the
timestamp is strictly before `now`, inserting each key into the collection. -/
def collectExpired (now : Int) : TimeIndex K → List K → List K
  | [], acc => acc
  | e :: rest, acc =>
      if e.exp < now then collectExpired now rest (insertSet e.key acc) else acc

/-- Embeds `UniqueExpireStrategy::onReplace(elemsToRemove)`: report (but do not
remove) every key whose timestamp is strictly before `now`, scanning the
time index in ascending order and stopping at the first non-expired entry. -/
def onReplace (s : UniqueExpireStrategy K) (now : Int) (elems : List K) :
    UniqueExpireStrategy K × List K :=
  (s, collectExpired now s.keyIndex elems)

/-- One invocation of a public method of the strategy, with its arguments
(including the wall-clock instant for the two time-reading methods). -/
inductive Op (K : Type) where
  | add (k : K) (ts : Int)
  | remove (k : K)
  | get (k : K)
  | clear
  | isValid (k : K) (now : Int) (slot : Bool)
  | replace (now : Int) (elems : List K)
deriving DecidableEq, Repr

/-- The state after one public method invocation. -/
def applyOp (s : UniqueExpireStrategy K) : Op K → UniqueExpireStrategy K
  | .add k ts => onAdd s k ts
  | .remove k => onRemove s k
  | .get k => onGet s k
  | .clear => onClear s
  | .isValid k now slot => (onIsValid s k now slot).1
  | .replace now elems => (onReplace s now elems).1

/-- The state after a sequence of public method invocations starting from a
freshly constructed strategy. -/
def run (ops : List (Op K)) : UniqueExpireStrategy K :=
  ops.foldl applyOp (UniqueExpireStrategy.empty K)

/-- A state is reachable when some sequence of public method invocations
produces it from a freshly constructed strategy. -/
def Reachable (s : UniqueExpireStrategy K) : Prop :=
  ∃ ops : List (Op K), run ops = s

/-- The recorded expiration of `k`: follow the `_keys` mapping and read the
timestamp of the pointed-to time-index entry. -/
def tsOf (s : UniqueExpireStrategy K) (k : K) : Option Int :=
  match findKey k s.keys with
  | none => none
  | some id => (findEntry id s.keyIndex).map TimeEntry.exp

/-- The time-index entries whose key is `k`. -/
def entriesFor (k : K) (s : UniqueExpireStrategy K) : List (TimeEntry K) :=
  s.keyIndex.filter (fun e => e.key = k)

example : run [Op.add 1 5, Op.add 2 3, Op.add 1 7] =
    ({ keys := [(2, 1), (1, 2)],
       keyIndex := [⟨1, 3, 2⟩, ⟨2, 7, 1⟩],
       nextId := 3 } : UniqueExpireStrategy Nat) := by decide

example : tsOf (run [Op.add 1 5, Op.add 1 7]) 1 = some 7 := by decide

example : (onReplace (run [Op.add 1 1, Op.add 2 2, Op.add 3 3]) 3 []).2 = [1, 2] := by
  decide

/-! ## Support lemmas about the container embeddings -/

theorem findKey_eq_none {k : K} {l : Keys K} :
    findKey k l = none ↔ ∀ p ∈ l, p.1 ≠ k := by
  induction l with
  | nil => simp [findKey]
  | cons p rest ih =>
    by_cases h : p.1 = k
    · simp [findKey, h]
    · simp [findKey, h, ih]

theorem findKey_mem {k : K} {l : Keys K} {id : Nat} (h : findKey k l = some id) :
    (k, id) ∈ l := by
  induction l with
  | nil => simp [findKey] at h
  | cons p rest ih =>
    rcases p with ⟨a, b⟩
    by_cases hp : a = k
    · simp only [findKey, hp, if_true, eq_self_iff_true, Option.some.injEq] at h
      subst hp; subst h
      exact List.mem_cons_self _ rest
    · simp only [findKey, hp, ite_false] at h
      exact List.mem_cons_of_mem _ (ih h)

theorem findKey_of_mem {l : Keys K} (nd : (l.map Prod.fst).Nodup) {k : K} {id : Nat}
    (h : (k, id) ∈ l) : findKey k l = some id := by
  induction l with
  | nil => simp at h
  | cons p rest ih =>
    simp only [List.map_cons, List.nodup_cons] at nd
    rcases List.mem_cons.mp h with rfl | hmem
    · simp [findKey]
    · have hp : p.1 ≠ k := by
        intro hk
        exact nd.1 (hk ▸ List.mem_map_of_mem Prod.fst hmem)
      simp [findKey, hp, ih nd.2 hmem]

theorem findEntry_mem {id : Nat} {l : TimeIndex K} {e : TimeEntry K}
    (h : findEntry id l = some e) : e ∈ l ∧ e.id = id := by
  induction l with
  | nil => simp [findEntry] at h
  | cons x rest ih =>
    by_cases hx : x.id = id
    · simp only [findEntry, hx, if_pos] at h
      obtain rfl : x = e := Option.some.inj h
      exact ⟨List.mem_cons_self _ _, hx⟩
    · simp only [findEntry, hx, if_neg, ite_false] at h
      exact ⟨List.mem_cons_of_mem _ (ih h).1, (ih h).2⟩

theorem findEntry_of_mem {l : TimeIndex K} (nd : (l.map TimeEntry.id).Nodup)
    {e : TimeEntry K} (h : e ∈ l) : findEntry e.id l = some e := by
  induction l with
  | nil => simp at h
  | cons x rest ih =>
    simp only [List.map_cons, List.nodup_cons] at nd
    rcases List.mem_cons.mp h with rfl | hmem
    · simp [findEntry]
    · have hx : x.id ≠ e.id := by
        intro hk
        apply nd.1
        rw [hk]
        exact List.mem_map_of_mem TimeEntry.id hmem
      simp [findEntry, hx, ih nd.2 hmem]

theorem insertTime_perm (e : TimeEntry K) (l : TimeIndex K) :
    List.Perm (insertTime e l) (e :: l) := by
  induction l with
  | nil => rfl
  | cons x rest ih =>
    by_cases h : e.exp < x.exp
    · simp [insertTime, h]
    · simp only [insertTime, h, ite_false]
      exact (ih.cons x).trans (List.Perm.swap e x rest)

theorem mem_insertTime {x e : TimeEntry K} {l : TimeIndex K} :
    x ∈ insertTime e l ↔ x = e ∨ x ∈ l :=
  ((insertTime_perm e l).mem_iff (a := x)).trans List.mem_cons

theorem sorted_insertTime (e : TimeEntry K) {l : TimeIndex K}
    (h : l.Pairwise (fun a b => a.exp ≤ b.exp)) :
    (insertTime e l).Pairwise (fun a b => a.exp ≤ b.exp) := by
  induction l with
  | nil => simp [insertTime]
  | cons x rest ih =>
    rcases List.pairwise_cons.mp h with ⟨hx, hrest⟩
    by_cases hlt : e.exp < x.exp
    · simp only [insertTime, hlt, ite_true]
      refine List.pairwise_cons.mpr ⟨?_, h⟩
      intro y hy
      rcases List.mem_cons.mp hy with rfl | hy
      · exact le_of_lt hlt
      · exact le_trans (le_of_lt hlt) (hx y hy)
    · simp only [insertTime, hlt, ite_false]
      refine List.pairwise_cons.mpr ⟨?_, ih hrest⟩
      intro y hy
      rcases mem_insertTime.mp hy with rfl | hy
      · exact not_lt.mp hlt
      · exact hx y hy

theorem filter_insertTime {p : TimeEntry K → Bool} {e : TimeEntry K}
    (he : p e = false) (l : TimeIndex K) :
    (insertTime e l).filter p = l.filter p := by
  induction l with
  | nil => simp [insertTime, he]
  | cons x rest ih =>
    by_cases hlt : e.exp < x.exp
    · simp [insertTime, hlt, List.filter_cons, he]
    · simp [insertTime, hlt, List.filter_cons, ih]

theorem mem_insertSet {k a : K} {l : List K} :
    k ∈ insertSet a l ↔ k = a ∨ k ∈ l := by
  unfold insertSet
  by_cases h : a ∈ l
  · simp only [h, ite_true]
    constructor
    · exact Or.inr
    · rintro (rfl | hk)
      · exact h
      · exact hk
  · simp [h, or_comm]

theorem mem_collectExpired {now : Int} {l : TimeIndex K}
    (hs : l.Pairwise (fun a b => a.exp ≤ b.exp)) (acc : List K) (k : K) :
    k ∈ collectExpired now l acc ↔ k ∈ acc ∨ ∃ e ∈ l, e.key = k ∧ e.exp < now := by
  induction l generalizing acc with
  | nil => simp [collectExpired]
  | cons e rest ih =>
    rcases List.pairwise_cons.mp hs with ⟨he, hrest⟩
    by_cases hlt : e.exp < now
    · simp only [collectExpired, hlt, ite_true]
      rw [ih hrest]
      rw [mem_insertSet]
      constructor
      · rintro ((rfl | hk) | ⟨x, hx, rfl, hxlt⟩)
        · exact Or.inr ⟨e, List.mem_cons_self e rest, rfl, hlt⟩
        · exact Or.inl hk
        · exact Or.inr ⟨x, List.mem_cons_of_mem _ hx, rfl, hxlt⟩
      · rintro (hk | ⟨x, hx, rfl, hxlt⟩)
        · exact Or.inl (Or.inr hk)
        · rcases List.mem_cons.mp hx with rfl | hx
          · exact Or.inl (Or.inl rfl)
          · exact Or.inr ⟨x, hx, rfl, hxlt⟩
    · simp only [collectExpired, hlt, ite_false]
      constructor
      · exact Or.inl
      · rintro (hk | ⟨x, hx, rfl, hxlt⟩)
        · exact hk
        · exfalso
          rcases List.mem_cons.mp hx with rfl | hx
          · exact hlt hxlt
          · exact hlt (lt_of_le_of_lt (he x hx) hxlt)

set_option linter.unusedSectionVars false

/-! ## The representation invariant of the two indexes -/

/-- The representation invariant tying `_keys` and `_keyIndex` together:
keys are unique, stored iterators are live and pairwise distinct, every
mapping points at an entry carrying the same key back, every entry is pointed
at by its key, identifiers are below the freshness counter, and the time index
is sorted by timestamp. -/
structure StrategyInv (s : UniqueExpireStrategy K) : Prop where
  keysNodup : (s.keys.map Prod.fst).Nodup
  idsNodup : (s.keys.map Prod.snd).Nodup
  entryIdsNodup : (s.keyIndex.map TimeEntry.id).Nodup
  keysLt : ∀ p ∈ s.keys, p.2 < s.nextId
  entriesLt : ∀ e ∈ s.keyIndex, e.id < s.nextId
  keyToTime : ∀ p ∈ s.keys, ∃ e ∈ s.keyIndex, e.id = p.2 ∧ e.key = p.1
  timeToKey : ∀ e ∈ s.keyIndex, (e.key, e.id) ∈ s.keys
  sorted : s.keyIndex.Pairwise (fun a b => a.exp ≤ b.exp)

theorem StrategyInv.key_inj {s : UniqueExpireStrategy K} (hs : StrategyInv s) {k : K} {i j : Nat}
    (hi : (k, i) ∈ s.keys) (hj : (k, j) ∈ s.keys) : i = j := by
  have h := List.inj_on_of_nodup_map hs.keysNodup hi hj rfl
  exact congrArg Prod.snd h

theorem StrategyInv.id_inj {s : UniqueExpireStrategy K} (hs : StrategyInv s) {k k' : K} {i : Nat}
    (hk : (k, i) ∈ s.keys) (hk' : (k', i) ∈ s.keys) : k = k' := by
  have h := List.inj_on_of_nodup_map hs.idsNodup hk hk' rfl
  exact congrArg Prod.fst h

theorem StrategyInv.entry_inj {s : UniqueExpireStrategy K} (hs : StrategyInv s) {e e' : TimeEntry K}
    (he : e ∈ s.keyIndex) (he' : e' ∈ s.keyIndex) (h : e.id = e'.id) : e = e' :=
  List.inj_on_of_nodup_map hs.entryIdsNodup he he' h

theorem StrategyInv.entry_key_inj {s : UniqueExpireStrategy K} (hs : StrategyInv s) {e e' : TimeEntry K}
    (he : e ∈ s.keyIndex) (he' : e' ∈ s.keyIndex) (h : e.key = e'.key) : e = e' := by
  have h1 := hs.timeToKey e he
  have h2 := hs.timeToKey e' he'
  rw [h] at h1
  exact hs.entry_inj he he' (hs.key_inj h1 h2)

/-- Under the invariant, the stored iterator of a tracked key dereferences to
a live entry carrying that key, and `tsOf` reads that entry's timestamp. -/
theorem tsOf_tracked {s : UniqueExpireStrategy K} (hs : StrategyInv s) {k : K} {id : Nat}
    (hk : findKey k s.keys = some id) :
    ∃ e ∈ s.keyIndex, e.id = id ∧ e.key = k ∧
      findEntry id s.keyIndex = some e ∧ tsOf s k = some e.exp := by
  obtain ⟨e, he, heid, hekey⟩ := hs.keyToTime (k, id) (findKey_mem hk)
  simp only at heid hekey
  have hfe : findEntry id s.keyIndex = some e := by
    rw [← heid]
    exact findEntry_of_mem hs.entryIdsNodup he
  refine ⟨e, he, heid, hekey, hfe, ?_⟩
  simp only [tsOf, hk, hfe, Option.map_some']

/-! ## The invariant holds in every reachable state -/

/-- The method `onIsValid` leaves the strategy state untouched (every branch of the
method body only reads). -/
theorem onIsValid_fst (s : UniqueExpireStrategy K) (k : K) (now : Int) (b : Bool) :
    (onIsValid s k now b).1 = s := by
  unfold onIsValid
  split
  · rfl
  · split
    · rfl
    · split <;> rfl

/-- The method `onReplace` leaves the strategy state untouched. -/
theorem onReplace_fst (s : UniqueExpireStrategy K) (now : Int) (elems : List K) :
    (onReplace s now elems).1 = s := rfl

theorem inv_empty : StrategyInv (UniqueExpireStrategy.empty K) := by
  constructor <;> simp [UniqueExpireStrategy.empty]

theorem inv_onClear {s : UniqueExpireStrategy K} (_hs : StrategyInv s) :
    StrategyInv (onClear s) := by
  constructor <;> simp [onClear]

theorem inv_onRemove {s : UniqueExpireStrategy K} (hs : StrategyInv s) (k : K) :
    StrategyInv (onRemove s k) := by
  unfold onRemove
  cases hk : findKey k s.keys with
  | none => exact hs
  | some id =>
    have hmem : (k, id) ∈ s.keys := findKey_mem hk
    refine ⟨?_, ?_, ?_, ?_, ?_, ?_, ?_, ?_⟩
    · exact hs.keysNodup.sublist ((List.filter_sublist _).map Prod.fst)
    · exact hs.idsNodup.sublist ((List.filter_sublist _).map Prod.snd)
    · exact hs.entryIdsNodup.sublist ((List.filter_sublist _).map TimeEntry.id)
    · intro p hp
      exact hs.keysLt p (List.mem_of_mem_filter hp)
    · intro e he
      exact hs.entriesLt e (List.mem_of_mem_filter he)
    · intro p hp
      rw [List.mem_filter] at hp
      obtain ⟨hp1, hp2⟩ := hp
      have hpk : p.1 ≠ k := by simpa using hp2
      obtain ⟨e, he, heid, hekey⟩ := hs.keyToTime p hp1
      refine ⟨e, ?_, heid, hekey⟩
      rw [List.mem_filter]
      refine ⟨he, ?_⟩
      have hpid : p.2 ≠ id := by
        intro heq
        rcases p with ⟨a, b⟩
        apply hpk
        subst heq
        exact hs.id_inj hp1 hmem
      simp [heid, hpid]
    · intro e he
      rw [List.mem_filter] at he
      obtain ⟨he1, he2⟩ := he
      have heid : e.id ≠ id := by simpa using he2
      have hekeys := hs.timeToKey e he1
      have hekk : e.key ≠ k := by
        intro hkk
        apply heid
        rw [hkk] at hekeys
        exact hs.key_inj hekeys hmem
      rw [List.mem_filter]
      refine ⟨hekeys, ?_⟩
      simp [hekk]
    · exact hs.sorted.sublist (List.filter_sublist _)

theorem inv_onAdd {s : UniqueExpireStrategy K} (hs : StrategyInv s) (k : K) (ts : Int) :
    StrategyInv (onAdd s k ts) := by
  cases hk : findKey k s.keys with
  | none =>
    simp only [onAdd, hk]
    refine ⟨?_, ?_, ?_, ?_, ?_, ?_, ?_, ?_⟩
    · simp only [List.map_cons, List.nodup_cons]
      refine ⟨?_, hs.keysNodup⟩
      intro hmem
      rw [List.mem_map] at hmem
      obtain ⟨p, hp, hpk⟩ := hmem
      exact (findKey_eq_none.mp hk p hp) hpk
    · simp only [List.map_cons, List.nodup_cons]
      refine ⟨?_, hs.idsNodup⟩
      intro hmem
      rw [List.mem_map] at hmem
      obtain ⟨p, hp, hpid⟩ := hmem
      have h1 := hs.keysLt p hp
      have h2 : p.2 = s.nextId := hpid
      omega
    · have hperm := (insertTime_perm ⟨s.nextId, ts, k⟩ s.keyIndex).map TimeEntry.id
      rw [hperm.nodup_iff]
      simp only [List.map_cons, List.nodup_cons]
      refine ⟨?_, hs.entryIdsNodup⟩
      intro hmem
      rw [List.mem_map] at hmem
      obtain ⟨x, hx, hxid⟩ := hmem
      have h1 := hs.entriesLt x hx
      have h2 : x.id = s.nextId := hxid
      omega
    · intro p hp
      rcases List.mem_cons.mp hp with rfl | hp
      · exact Nat.lt_succ_self _
      · exact Nat.lt_succ_of_lt (hs.keysLt p hp)
    · intro x hx
      rcases mem_insertTime.mp hx with rfl | hx
      · exact Nat.lt_succ_self _
      · exact Nat.lt_succ_of_lt (hs.entriesLt x hx)
    · intro p hp
      rcases List.mem_cons.mp hp with rfl | hp
      · exact ⟨⟨s.nextId, ts, k⟩, mem_insertTime.mpr (Or.inl rfl), rfl, rfl⟩
      · obtain ⟨x, hx, hxid, hxkey⟩ := hs.keyToTime p hp
        exact ⟨x, mem_insertTime.mpr (Or.inr hx), hxid, hxkey⟩
    · intro x hx
      rcases mem_insertTime.mp hx with rfl | hx
      · exact List.mem_cons_self _ _
      · exact List.mem_cons_of_mem _ (hs.timeToKey x hx)
    · exact sorted_insertTime _ hs.sorted
  | some oldId =>
    have hmem : (k, oldId) ∈ s.keys := findKey_mem hk
    have holdlt : oldId < s.nextId := hs.keysLt _ hmem
    simp only [onAdd, hk]
    refine ⟨?_, ?_, ?_, ?_, ?_, ?_, ?_, ?_⟩
    · have hmf : (s.keys.map fun p => if p.1 = k then ((k, s.nextId) : K × Nat) else p).map
          Prod.fst = s.keys.map Prod.fst := by
        rw [List.map_map]
        apply List.map_congr_left
        intro p hp
        by_cases hpk : p.1 = k
        · simp [hpk]
        · simp [hpk]
      rw [hmf]
      exact hs.keysNodup
    · rw [List.map_map]
      rw [List.nodup_map_iff_inj_on hs.keysNodup.of_map]
      intro p hp q hq hpq
      by_cases hpk : p.1 = k <;> by_cases hqk : q.1 = k <;> simp only [hpk, hqk,
        ite_true, ite_false, Function.comp_apply] at hpq
      · exact List.inj_on_of_nodup_map hs.keysNodup hp hq (hpk.trans hqk.symm)
      · have := hs.keysLt q hq
        omega
      · have := hs.keysLt p hp
        omega
      · exact List.inj_on_of_nodup_map hs.idsNodup hp hq hpq
    · have hperm := (insertTime_perm ⟨s.nextId, ts, k⟩ s.keyIndex).map TimeEntry.id
      have hbig : ((insertTime ⟨s.nextId, ts, k⟩ s.keyIndex).map TimeEntry.id).Nodup := by
        rw [hperm.nodup_iff]
        simp only [List.map_cons, List.nodup_cons]
        refine ⟨?_, hs.entryIdsNodup⟩
        intro hmem2
        rw [List.mem_map] at hmem2
        obtain ⟨x, hx, hxid⟩ := hmem2
        have h1 := hs.entriesLt x hx
        have h2 : x.id = s.nextId := hxid
        omega
      exact hbig.sublist ((List.filter_sublist _).map TimeEntry.id)
    · intro p hp
      rw [List.mem_map] at hp
      obtain ⟨q, hq, rfl⟩ := hp
      by_cases hqk : q.1 = k
      · simp only [hqk, ite_true]
        exact Nat.lt_succ_self _
      · simp only [hqk, ite_false]
        exact Nat.lt_succ_of_lt (hs.keysLt q hq)
    · intro x hx
      rw [List.mem_filter] at hx
      rcases mem_insertTime.mp hx.1 with rfl | hx1
      · exact Nat.lt_succ_self _
      · exact Nat.lt_succ_of_lt (hs.entriesLt x hx1)
    · intro p hp
      rw [List.mem_map] at hp
      obtain ⟨q, hq, rfl⟩ := hp
      by_cases hqk : q.1 = k
      · simp only [hqk, ite_true]
        refine ⟨⟨s.nextId, ts, k⟩, ?_, rfl, rfl⟩
        rw [List.mem_filter]
        refine ⟨mem_insertTime.mpr (Or.inl rfl), ?_⟩
        simp only [decide_eq_true_eq]
        show s.nextId ≠ oldId
        omega
      · simp only [hqk, ite_false]
        obtain ⟨x, hx, hxid, hxkey⟩ := hs.keyToTime q hq
        have hqid : q.2 ≠ oldId := by
          intro heq
          apply hqk
          rcases q with ⟨a, b⟩
          simp only at heq
          subst heq
          exact hs.id_inj hq hmem
        refine ⟨x, ?_, hxid, hxkey⟩
        rw [List.mem_filter]
        refine ⟨mem_insertTime.mpr (Or.inr hx), ?_⟩
        simp only [decide_eq_true_eq]
        rw [hxid]
        exact hqid
    · intro x hx
      rw [List.mem_filter] at hx
      obtain ⟨hx1, hx2⟩ := hx
      have hxold : x.id ≠ oldId := by simpa using hx2
      rcases mem_insertTime.mp hx1 with rfl | hx1
      · rw [List.mem_map]
        exact ⟨(k, oldId), hmem, by simp⟩
      · have hxkeys := hs.timeToKey x hx1
        have hxkk : x.key ≠ k := by
          intro he
          apply hxold
          rw [he] at hxkeys
          exact hs.key_inj hxkeys hmem
        rw [List.mem_map]
        exact ⟨(x.key, x.id), hxkeys, by simp [hxkk]⟩
    · exact (sorted_insertTime _ hs.sorted).sublist (List.filter_sublist _)

theorem inv_applyOp {s : UniqueExpireStrategy K} (hs : StrategyInv s) (op : Op K) :
    StrategyInv (applyOp s op) := by
  cases op with
  | add k ts => exact inv_onAdd hs k ts
  | remove k => exact inv_onRemove hs k
  | get k => exact hs
  | clear => exact inv_onClear hs
  | isValid k now slot => rw [applyOp, onIsValid_fst]; exact hs
  | replace now elems => exact hs

theorem inv_foldl {s : UniqueExpireStrategy K} (hs : StrategyInv s) (ops : List (Op K)) :
    StrategyInv (ops.foldl applyOp s) := by
  induction ops generalizing s with
  | nil => exact hs
  | cons op rest ih => exact ih (inv_applyOp hs op)

/-- Every reachable state satisfies the representation invariant. -/
theorem inv_of_reachable {s : UniqueExpireStrategy K} (hs : Reachable s) :
    StrategyInv s := by
  obtain ⟨ops, rfl⟩ := hs
  exact inv_foldl inv_empty ops

/-! ## Behaviour of the operations on tracked and untracked keys -/

/-- After `onAdd s k ts`, the time index holds exactly one entry for `k`,
namely the freshly inserted one with timestamp `ts`. -/
theorem entriesFor_onAdd_self {s : UniqueExpireStrategy K} (hs : StrategyInv s)
    (k : K) (ts : Int) :
    entriesFor k (onAdd s k ts) = [⟨s.nextId, ts, k⟩] := by
  cases hk : findKey k s.keys with
  | none =>
    have hfil : s.keyIndex.filter (fun e => e.key = k) = [] := by
      rw [List.filter_eq_nil_iff]
      intro e he hek
      have hkey : e.key = k := by simpa using hek
      have hmem := hs.timeToKey e he
      rw [hkey] at hmem
      exact (findKey_eq_none.mp hk _ hmem) rfl
    have hp := (insertTime_perm ⟨s.nextId, ts, k⟩ s.keyIndex).filter
        (fun e => decide (e.key = k))
    rw [List.filter_cons] at hp
    simp only [decide_eq_true_eq] at hp
    rw [if_pos trivial, hfil] at hp
    simp only [entriesFor, onAdd, hk]
    exact List.perm_singleton.mp hp
  | some oldId =>
    have hmem := findKey_mem hk
    have holdlt := hs.keysLt _ hmem
    have hfil : s.keyIndex.filter
        (fun x => decide (x.key = k) && decide (x.id ≠ oldId)) = [] := by
      rw [List.filter_eq_nil_iff]
      intro x hx hcond
      simp only [Bool.and_eq_true, decide_eq_true_eq] at hcond
      obtain ⟨hxk, hxid⟩ := hcond
      have hxmem := hs.timeToKey x hx
      rw [hxk] at hxmem
      exact hxid (hs.key_inj hxmem hmem)
    have hp := (insertTime_perm ⟨s.nextId, ts, k⟩ s.keyIndex).filter
        (fun x => decide (x.key = k) && decide (x.id ≠ oldId))
    rw [List.filter_cons] at hp
    simp only [Bool.and_eq_true, decide_eq_true_eq] at hp
    rw [if_pos ⟨trivial, by omega⟩, hfil] at hp
    simp only [entriesFor, onAdd, hk, List.filter_filter]
    exact List.perm_singleton.mp hp

/-- Overwriting the mapped value of a present key is visible to `findKey`. -/
theorem findKey_map_overwrite {l : Keys K} {k : K} {n oldId : Nat}
    (h : findKey k l = some oldId) :
    findKey k (l.map (fun p => if p.1 = k then ((k, n) : K × Nat) else p)) = some n := by
  induction l with
  | nil => simp [findKey] at h
  | cons p rest ih =>
    by_cases hpk : p.1 = k
    · simp [findKey, hpk]
    · simp only [findKey, hpk, ite_false] at h
      simp [findKey, hpk, ih h]

/-- After `onAdd s k ts`, the `_keys` map sends `k` to the fresh iterator. -/
theorem findKey_onAdd_self (s : UniqueExpireStrategy K) (k : K) (ts : Int) :
    findKey k (onAdd s k ts).keys = some s.nextId := by
  cases hk : findKey k s.keys with
  | none => simp [onAdd, hk, findKey]
  | some oldId =>
    simp only [onAdd, hk]
    exact findKey_map_overwrite hk

/-- Every entry of the post-`onAdd` time index is the fresh entry or an old
one. -/
theorem mem_onAdd_keyIndex {s : UniqueExpireStrategy K} {k : K} {ts : Int}
    {x : TimeEntry K} (hx : x ∈ (onAdd s k ts).keyIndex) :
    x = ⟨s.nextId, ts, k⟩ ∨ x ∈ s.keyIndex := by
  cases hk : findKey k s.keys with
  | none =>
    simp only [onAdd, hk] at hx
    exact mem_insertTime.mp hx
  | some oldId =>
    simp only [onAdd, hk, List.mem_filter] at hx
    exact mem_insertTime.mp hx.1

/-- After `onAdd s k ts`, the recorded expiration of `k` is `ts`: the add is
always recorded, with the latest write winning. -/
theorem tsOf_onAdd_self {s : UniqueExpireStrategy K} (hs : StrategyInv s)
    (k : K) (ts : Int) :
    tsOf (onAdd s k ts) k = some ts := by
  have hs' := inv_onAdd hs k ts
  have hfk := findKey_onAdd_self s k ts
  obtain ⟨e, he, heid, hekey, hfe, hts⟩ := tsOf_tracked hs' hfk
  have hnew : e = ⟨s.nextId, ts, k⟩ := by
    rcases mem_onAdd_keyIndex he with h | h
    · exact h
    · have hlt := hs.entriesLt e h
      rw [heid] at hlt
      exact absurd hlt (lt_irrefl _)
  rw [hts, hnew]

/-- Under the invariant, the time index has an entry for `k` with timestamp
`t` exactly when the recorded expiration of `k` is `t`. -/
theorem entry_iff_tsOf {s : UniqueExpireStrategy K} (hs : StrategyInv s) (k : K) (t : Int) :
    (∃ e ∈ s.keyIndex, e.key = k ∧ e.exp = t) ↔ tsOf s k = some t := by
  constructor
  · rintro ⟨e, he, rfl, rfl⟩
    have hkeys := hs.timeToKey e he
    have hfk : findKey e.key s.keys = some e.id := findKey_of_mem hs.keysNodup hkeys
    obtain ⟨x, hx, hxid, hxkey, hfe, hts⟩ := tsOf_tracked hs hfk
    rw [hts]
    rw [hs.entry_inj hx he hxid]
  · intro ht
    cases hfk : findKey k s.keys with
    | none =>
      simp only [tsOf, hfk] at ht
      exact absurd ht (by simp)
    | some id =>
      obtain ⟨e, he, heid, hekey, hfe, hts⟩ := tsOf_tracked hs hfk
      rw [hts] at ht
      exact ⟨e, he, hekey, Option.some.inj ht⟩

/-- Characterization of the sweep: starting from an empty collection, a key is
reported exactly when it is tracked with a recorded expiration strictly before
`now`. -/
theorem mem_onReplace {s : UniqueExpireStrategy K} (hs : StrategyInv s)
    (now : Int) (k : K) :
    k ∈ (onReplace s now []).2 ↔ ∃ t, tsOf s k = some t ∧ t < now := by
  show k ∈ collectExpired now s.keyIndex [] ↔ _
  rw [mem_collectExpired hs.sorted]
  simp only [List.not_mem_nil, false_or]
  constructor
  · rintro ⟨e, he, rfl, hlt⟩
    exact ⟨e.exp, (entry_iff_tsOf hs e.key e.exp).mp ⟨e, he, rfl, rfl⟩, hlt⟩
  · rintro ⟨t, ht, hlt⟩
    obtain ⟨e, he, hekey, hexp⟩ := (entry_iff_tsOf hs k t).mpr ht
    refine ⟨e, he, hekey, ?_⟩
    rw [hexp]
    exact hlt

/-- Behaviour of the validity check on a tracked key: the slot is forced to
`false` exactly when the recorded expiration is `≤ now`, and left alone
otherwise. -/
theorem onIsValid_snd_tracked {s : UniqueExpireStrategy K} (hs : StrategyInv s)
    {k : K} {t : Int} (ht : tsOf s k = some t) (now : Int) (b : Bool) :
    (onIsValid s k now b).2 = if t ≤ now then false else b := by
  cases hfk : findKey k s.keys with
  | none =>
    simp only [tsOf, hfk] at ht
    exact absurd ht (by simp)
  | some id =>
    obtain ⟨e, he, heid, hekey, hfe, hts⟩ := tsOf_tracked hs hfk
    rw [hts] at ht
    obtain rfl : e.exp = t := Option.some.inj ht
    simp only [onIsValid, hfk, hfe]
    by_cases h : e.exp ≤ now <;> simp [h]

/-- After erasing `k`, the `_keys` map no longer contains it. -/
theorem findKey_filter_self (l : Keys K) (k : K) :
    findKey k (l.filter (fun p => p.1 ≠ k)) = none := by
  rw [findKey_eq_none]
  intro p hp
  rw [List.mem_filter] at hp
  simpa using hp.2

/-- Overwriting the mapped value of `k` does not change the mapping of any
other key. -/
theorem findKey_map_overwrite_ne {l : Keys K} {k k' : K} {n : Nat} (hne : k' ≠ k) :
    findKey k' (l.map (fun p => if p.1 = k then ((k, n) : K × Nat) else p)) =
      findKey k' l := by
  induction l with
  | nil => rfl
  | cons p rest ih =>
    by_cases hpk : p.1 = k
    · have hk' : ¬(k = k') := fun h => hne h.symm
      simp [findKey, hpk, hk', ih]
    · simp [findKey, hpk, ih]

/-- Re-adding `k` leaves the time-index entries of every other key unchanged
(the erase goes through `k`'s own stored iterator). -/
theorem entriesFor_onAdd_other {s : UniqueExpireStrategy K} (hs : StrategyInv s)
    {k k' : K} (hne : k' ≠ k) (ts : Int) :
    entriesFor k' (onAdd s k ts) = entriesFor k' s := by
  cases hk : findKey k s.keys with
  | none =>
    simp only [entriesFor, onAdd, hk]
    exact filter_insertTime (by simp [Ne.symm hne]) _
  | some oldId =>
    have hmem := findKey_mem hk
    simp only [entriesFor, onAdd, hk, List.filter_filter]
    rw [filter_insertTime (by simp [Ne.symm hne]) _]
    apply List.filter_congr
    intro x hx
    by_cases hxk : x.key = k'
    · have hxmem := hs.timeToKey x hx
      rw [hxk] at hxmem
      have hxid : x.id ≠ oldId := by
        intro heq
        rw [heq] at hxmem
        exact hne (hs.id_inj hxmem hmem)
      simp [hxk, hxid]
    · simp [hxk]

/-! ## The claims -/

/-- C1: for every sequence of `onAdd` calls for the same key `k` (with
arbitrary values), after the sequence exactly one entry for `k` exists in the
time index, and its timestamp equals the expiration of the most recent add
(latest write wins). -/
theorem C1_unique_latest_write (s : UniqueExpireStrategy K) (h : Reachable s) (k : K)
    (init : List Int) (tlast : Int) :
    ∃ id, entriesFor k ((init ++ [tlast]).foldl (fun st t => onAdd st k t) s) =
      [⟨id, tlast, k⟩] := by
  have h1 : ∀ (l2 : List Int) (s2 : UniqueExpireStrategy K),
      l2.foldl (fun st u => onAdd st k u) s2 = (l2.map (Op.add k)).foldl applyOp s2 := by
    intro l2
    induction l2 with
    | nil => intro s2; rfl
    | cons u rest ih =>
      intro s2
      simp only [List.foldl_cons, List.map_cons]
      exact ih _
  have hinv : StrategyInv (init.foldl (fun st u => onAdd st k u) s) := by
    rw [h1 init s]
    exact inv_foldl (inv_of_reachable h) _
  rw [List.foldl_append]
  simp only [List.foldl_cons, List.foldl_nil]
  exact ⟨(init.foldl (fun st u => onAdd st k u) s).nextId,
    entriesFor_onAdd_self hinv k tlast⟩

/-- C2: in every reachable state, every key in the `_keys` index points at
exactly one live time-index entry carrying that key, every time-index entry is
pointed at by exactly one key, and the two indexes have equal size. -/
theorem C2_dual_index_consistency (s : UniqueExpireStrategy K) (h : Reachable s) :
    (∀ p ∈ s.keys, ∃ e ∈ s.keyIndex, e.id = p.2 ∧ e.key = p.1 ∧
      ∀ e' ∈ s.keyIndex, e'.id = p.2 → e' = e) ∧
    (∀ e ∈ s.keyIndex, (e.key, e.id) ∈ s.keys ∧
      ∀ p ∈ s.keys, p.2 = e.id → p = (e.key, e.id)) ∧
    s.keys.length = s.keyIndex.length := by
  have hs := inv_of_reachable h
  refine ⟨?_, ?_, ?_⟩
  · intro p hp
    obtain ⟨e, he, heid, hekey⟩ := hs.keyToTime p hp
    refine ⟨e, he, heid, hekey, ?_⟩
    intro e' he' heid'
    exact hs.entry_inj he' he (heid'.trans heid.symm)
  · intro e he
    refine ⟨hs.timeToKey e he, ?_⟩
    intro p hp hpid
    rcases p with ⟨a, b⟩
    simp only at hpid
    subst hpid
    have hak : a = e.key := hs.id_inj hp (hs.timeToKey e he)
    rw [hak]
  · have hperm : List.Perm (s.keys.map Prod.snd) (s.keyIndex.map TimeEntry.id) := by
      rw [List.perm_ext_iff_of_nodup hs.idsNodup hs.entryIdsNodup]
      intro n
      constructor
      · intro hn
        rw [List.mem_map] at hn ⊢
        obtain ⟨p, hp, rfl⟩ := hn
        obtain ⟨e, he, heid, _⟩ := hs.keyToTime p hp
        exact ⟨e, he, heid⟩
      · intro hn
        rw [List.mem_map] at hn ⊢
        obtain ⟨e, he, rfl⟩ := hn
        exact ⟨(e.key, e.id), hs.timeToKey e he, rfl⟩
    have hlen := hperm.length_eq
    simpa using hlen

/-- C3: for a tracked key with recorded expiration `t`, the validity check at
time `now` signals invalid if and only if `t ≤ now` (the boundary is
inclusive), and it performs no mutation of either index. -/
theorem C3_isValid_inclusive_boundary (s : UniqueExpireStrategy K) (h : Reachable s)
    (k : K) (t now : Int) (b : Bool) (ht : tsOf s k = some t) :
    ((onIsValid s k now true).2 = false ↔ t ≤ now) ∧ (onIsValid s k now b).1 = s := by
  have hs := inv_of_reachable h
  refine ⟨?_, onIsValid_fst s k now b⟩
  rw [onIsValid_snd_tracked hs ht now true]
  by_cases hle : t ≤ now <;> simp [hle]

/-- C4: the sweep at time `now`, fed an empty collection, reports exactly the
tracked keys whose recorded timestamp is strictly before `now`, regardless of
insertion order, and does not mutate the state. -/
theorem C4_replace_candidates (s : UniqueExpireStrategy K) (h : Reachable s) (now : Int) :
    (∀ k, k ∈ (onReplace s now []).2 ↔ ∃ t, tsOf s k = some t ∧ t < now) ∧
    (onReplace s now []).1 = s := by
  have hs := inv_of_reachable h
  exact ⟨fun k => mem_onReplace hs now k, rfl⟩

/-- C5: `onAdd` records the key even when the expiration `ts` is already in
the past (`ts < tAdd`), and the very next `onIsValid` or `onReplace` at any
time `now ≥ tAdd` reports it. -/
theorem C5_expired_add_reported (s : UniqueExpireStrategy K) (h : Reachable s) (k : K)
    (ts tAdd now : Int) (hpast : ts < tAdd) (hnow : tAdd ≤ now) :
    tsOf (onAdd s k ts) k = some ts ∧
    (onIsValid (onAdd s k ts) k now true).2 = false ∧
    k ∈ (onReplace (onAdd s k ts) now []).2 := by
  have hs := inv_of_reachable h
  have hs' := inv_onAdd hs k ts
  have hts := tsOf_onAdd_self hs k ts
  refine ⟨hts, ?_, ?_⟩
  · rw [onIsValid_snd_tracked hs' hts now true]
    have hle : ts ≤ now := by omega
    simp [hle]
  · rw [mem_onReplace hs' now k]
    exact ⟨ts, hts, by omega⟩

/-- C6: for a key not present in the `_keys` index, the validity check leaves
the outcome slot untouched and the state unchanged, at every current time. -/
theorem C6_untracked_reported_valid (s : UniqueExpireStrategy K) (k : K)
    (hk : findKey k s.keys = none) (now : Int) (b : Bool) :
    onIsValid s k now b = (s, b) := by
  simp [onIsValid, hk]

/-- C7: removing an untracked key is a no-op (not an error), and removal is
idempotent: two consecutive removals of the same key equal one. -/
theorem C7_remove_idempotent (s : UniqueExpireStrategy K) (k : K) :
    (findKey k s.keys = none → onRemove s k = s) ∧
    onRemove (onRemove s k) k = onRemove s k := by
  have huntracked : ∀ s' : UniqueExpireStrategy K,
      findKey k s'.keys = none → onRemove s' k = s' := by
    intro s' hk
    simp [onRemove, hk]
  refine ⟨huntracked s, ?_⟩
  cases hk : findKey k s.keys with
  | none =>
    rw [huntracked s hk]
    exact huntracked s hk
  | some id =>
    apply huntracked
    simp only [onRemove, hk]
    exact findKey_filter_self s.keys k

/-- C8: `onClear` unconditionally empties both indexes; immediately afterwards
the validity check leaves every slot untouched (signals valid for every
previously-tracked key) and the sweep on an empty collection reports
nothing. -/
theorem C8_clear_total (s : UniqueExpireStrategy K) (k : K) (now : Int) (b : Bool) :
    (onClear s).keys = [] ∧ (onClear s).keyIndex = [] ∧
    onIsValid (onClear s) k now b = (onClear s, b) ∧
    (onReplace (onClear s) now []).2 = [] := by
  refine ⟨rfl, rfl, ?_, rfl⟩
  simp [onIsValid, onClear, findKey]

/-- C9: the two expiry queries disagree at the boundary: a tracked key whose
recorded expiration equals the current time `t` is signalled invalid by
`onIsValid` at `t`, yet is not reported by `onReplace` at the same `t`. -/
theorem C9_boundary_disagreement (s : UniqueExpireStrategy K) (h : Reachable s)
    (k : K) (t : Int) (ht : tsOf s k = some t) :
    (onIsValid s k t true).2 = false ∧ k ∉ (onReplace s t []).2 := by
  have hs := inv_of_reachable h
  refine ⟨?_, ?_⟩
  · rw [onIsValid_snd_tracked hs ht t true]
    simp
  · rw [mem_onReplace hs t k]
    rintro ⟨u, hu, hlt⟩
    rw [ht] at hu
    obtain rfl : t = u := Option.some.inj hu
    exact absurd hlt (lt_irrefl t)

/-- C10: `onAdd s k ts` leaves every other key untouched: for `k' ≠ k` the
time-index entries of `k'` and the `_keys` mapping of `k'` are unchanged,
even in the presence of duplicate timestamps. -/
theorem C10_add_frame (s : UniqueExpireStrategy K) (h : Reachable s) (k : K) (ts : Int)
    (k' : K) (hne : k' ≠ k) :
    entriesFor k' (onAdd s k ts) = entriesFor k' s ∧
    findKey k' (onAdd s k ts).keys = findKey k' s.keys := by
  have hs := inv_of_reachable h
  refine ⟨entriesFor_onAdd_other hs hne ts, ?_⟩
  cases hk : findKey k s.keys with
  | none =>
    have hkk : ¬(k = k') := fun hh => hne hh.symm
    simp [onAdd, hk, findKey, hkk]
  | some oldId =>
    simp only [onAdd, hk]
    exact findKey_map_overwrite_ne hne

/-! ## Witnesses instantiating the claims at concrete inputs -/

/-- Witness for C1: adding key 0 with timestamps 1 then 5 to a fresh strategy
leaves one time entry with timestamp 5. -/
theorem C1_witness :
    ∃ id, entriesFor 0 ((([1] : List Int) ++ [5]).foldl (fun st t => onAdd st 0 t)
      (UniqueExpireStrategy.empty Nat)) = [⟨id, 5, 0⟩] :=
  C1_unique_latest_write (UniqueExpireStrategy.empty Nat) ⟨[], rfl⟩ 0 [1] 5

/-- Witness for C2: after one add, both indexes have equal size. -/
theorem C2_witness :
    (run [Op.add (1 : Nat) (5 : Int)]).keys.length =
      (run [Op.add (1 : Nat) (5 : Int)]).keyIndex.length :=
  (C2_dual_index_consistency (run [Op.add 1 5]) ⟨[Op.add 1 5], rfl⟩).2.2

/-- Witness for C3: key 1 expiring at 5 is invalid at time 7, with the state
untouched. -/
theorem C3_witness :
    ((onIsValid (run [Op.add (1 : Nat) (5 : Int)]) 1 7 true).2 = false ↔ (5 : Int) ≤ 7) ∧
    (onIsValid (run [Op.add (1 : Nat) (5 : Int)]) 1 7 true).1 =
      run [Op.add (1 : Nat) (5 : Int)] :=
  C3_isValid_inclusive_boundary (run [Op.add 1 5]) ⟨[Op.add 1 5], rfl⟩ 1 5 7 true
    (by decide)

/-- Witness for C4: the sweep at time 6 over a strategy tracking key 1 at
timestamp 5. -/
theorem C4_witness :
    (∀ k, k ∈ (onReplace (run [Op.add (1 : Nat) (5 : Int)]) 6 []).2 ↔
      ∃ t, tsOf (run [Op.add (1 : Nat) (5 : Int)]) k = some t ∧ t < 6) ∧
    (onReplace (run [Op.add (1 : Nat) (5 : Int)]) 6 []).1 =
      run [Op.add (1 : Nat) (5 : Int)] :=
  C4_replace_candidates (run [Op.add 1 5]) ⟨[Op.add 1 5], rfl⟩ 6

/-- Witness for C5: adding key 1 already expired (timestamp 0, add time 1) is
recorded and reported at time 2. -/
theorem C5_witness :
    tsOf (onAdd (UniqueExpireStrategy.empty Nat) 1 0) 1 = some 0 ∧
    (onIsValid (onAdd (UniqueExpireStrategy.empty Nat) 1 0) 1 2 true).2 = false ∧
    1 ∈ (onReplace (onAdd (UniqueExpireStrategy.empty Nat) 1 0) 2 []).2 :=
  C5_expired_add_reported (UniqueExpireStrategy.empty Nat) ⟨[], rfl⟩ 1 0 1 2
    (by decide) (by decide)

/-- Witness for C6: checking untracked key 1 on a fresh strategy leaves the
slot and state alone. -/
theorem C6_witness :
    onIsValid (UniqueExpireStrategy.empty Nat) 1 0 true =
      (UniqueExpireStrategy.empty Nat, true) :=
  C6_untracked_reported_valid (UniqueExpireStrategy.empty Nat) 1 rfl 0 true

/-- Witness for C7: removing untracked key 1 is a no-op, and a second removal
after a real one changes nothing. -/
theorem C7_witness :
    onRemove (UniqueExpireStrategy.empty Nat) 1 = UniqueExpireStrategy.empty Nat ∧
    onRemove (onRemove (run [Op.add (1 : Nat) (5 : Int)]) 1) 1 =
      onRemove (run [Op.add (1 : Nat) (5 : Int)]) 1 :=
  ⟨(C7_remove_idempotent (UniqueExpireStrategy.empty Nat) 1).1 rfl,
   (C7_remove_idempotent (run [Op.add 1 5]) 1).2⟩

/-- Witness for C9: key 1 with recorded expiration 5 is signalled invalid by
the validity check at time 5 but not reported by the sweep at time 5. -/
theorem C9_witness :
    (onIsValid (run [Op.add (1 : Nat) (5 : Int)]) 1 5 true).2 = false ∧
    1 ∉ (onReplace (run [Op.add (1 : Nat) (5 : Int)]) 5 []).2 :=
  C9_boundary_disagreement (run [Op.add 1 5]) ⟨[Op.add 1 5], rfl⟩ 1 5 (by decide)

/-- Witness for C10: re-adding key 1 at timestamp 5 leaves key 2 (which shares
the timestamp 5) untouched in both indexes. -/
theorem C10_witness :
    entriesFor 2 (onAdd (run [Op.add (1 : Nat) (5 : Int), Op.add 2 5]) 1 5) =
      entriesFor 2 (run [Op.add (1 : Nat) (5 : Int), Op.add 2 5]) ∧
    findKey 2 (onAdd (run [Op.add (1 : Nat) (5 : Int), Op.add 2 5]) 1 5).keys =
      findKey 2 (run [Op.add (1 : Nat) (5 : Int), Op.add 2 5]).keys :=
  C10_add_frame (run [Op.add 1 5, Op.add 2 5]) ⟨[Op.add 1 5, Op.add 2 5], rfl⟩ 1 5 2
    (by decide)
